import Mathlib

/-!
Verification of `skrf/vectorFitting.py` (class `VectorFitting`).

This file gives a shallow embedding, in Lean 4, of the control flow and data
manipulations of the vector-fitting implementation, and proves (or refutes)
the frozen specification claims about it.

Modelling conventions:
* Floating-point scalars are modelled by `ℚ` (exact arithmetic over an ordered
  field; all embedded code fragments only use field operations, absolute
  value and order comparisons, so `ℚ` reproduces the branching structure of
  the Python code exactly).
* A complex scalar is a pair `ℚ × ℚ` of (real part, imaginary part).
* `numpy` arrays become lists; array indexing `a[k]` becomes `List.getD k 0`.
* The value `np.inf` is modelled by `⊤ : WithTop ℚ`; every finite float is a
  coerced rational.
* Outputs of external dense numeric primitives (eigendecomposition, SVD,
  least squares) are taken as parameters of the embedded functions, since the
  spec lists them as external collaborators; the code that consumes those
  outputs is embedded faithfully.
* `π` appears in the code only through the constant `np.pi`; functions that
  use it take it as an explicit parameter `pi : ℚ`.
-/

/- ### Data model (`VectorFitting.__init__`, lines 95-128)

The four model attributes `poles`, `residues`, `proportional_coeff`,
`constant_coeff`.  Before a fit they are all `None`; `OptModel` is the raw
attribute state, `Model` the fitted state. -/

/-- A fitted model: the four coefficient attributes of `VectorFitting`.
`poles` and `residues` hold complex scalars (pairs of rationals). -/
structure Model where
  poles : List (ℚ × ℚ)
  residues : List (List (ℚ × ℚ))
  proportional_coeff : List ℚ
  constant_coeff : List ℚ
deriving DecidableEq, Repr

/-- The raw attribute state of a `VectorFitting` instance: each of the four
model attributes is `None` (here `none`) until `vector_fit` or `read_npz`
sets it. -/
structure OptModel where
  poles : Option (List (ℚ × ℚ))
  residues : Option (List (List (ℚ × ℚ)))
  proportional_coeff : Option (List ℚ)
  constant_coeff : Option (List ℚ)
deriving DecidableEq, Repr

/- ### `_find_limits_of_violation` (lines 1206-1227)

    intervals = []
    i = 0
    while i < len(violations):
        min_index = violations[i]
        while i < len(violations) - 1 and violations[i] + 1 == violations[i + 1]:
            i += 1
        max_index = violations[i]
        intervals.append((min_index, max_index))
        i += 1

The inner `while` advances `i` as long as the next entry is the direct
successor; the outer loop then records the pair and restarts after it.
`find_limits_aux mn cur ys` is the state where the current run started at
`mn`, the entry under the cursor is `cur`, and `ys` is the remaining list. -/

/-- Auxiliary recursion for `_find_limits_of_violation`: `mn` is the
`min_index` of the run being scanned, `cur` the element at the cursor,
`ys` the elements after the cursor. -/
def find_limits_aux (mn cur : ℕ) : List ℕ → List (ℕ × ℕ)
  | [] => [(mn, cur)]
  | y :: ys =>
      if cur + 1 = y then find_limits_aux mn y ys
      else (mn, cur) :: find_limits_aux y y ys

/-- `_find_limits_of_violation(violations)`: splits the index list into
`(min_index, max_index)` pairs, one per maximal run of consecutive values. -/
def find_limits_of_violation : List ℕ → List (ℕ × ℕ)
  | [] => []
  | v :: vs => find_limits_aux v v vs

/- ### The `d_res` guard in `vector_fit` (lines 446-458)

    tol_res = 1e-8
    if np.abs(d_res) < tol_res:
        d_res = tol_res * (d_res / np.abs(d_res))
        warnings.warn("Replacing d_res solution as it was too small. ...")
-/

/-- `tol_res = 1e-8` (line 447). -/
def tol_res : ℚ := 1 / 10 ^ 8

/-- The `d_res` guard of `vector_fit`: returns the (possibly replaced)
`d_res` together with a flag recording whether the warning branch was
taken.  The quotient `d / |d|` is the code's sign computation
`d_res / np.abs(d_res)`. -/
def clamp_d_res (d : ℚ) : ℚ × Bool :=
  if |d| < tol_res then (tol_res * (d / |d|), true) else (d, false)

/- ### Parameter-type selection (`vector_fit` lines 274-286, `get_rms_error`
lines 714-721)

`vector_fit` warns on an unknown selector and falls back to the scattering
representation; `get_rms_error` raises `ValueError`.  Python's
`str.lower()` is modelled for the ASCII range. -/

/-- ASCII lowercasing of one character, as `str.lower()` acts on the
selector strings of this module. -/
def py_lower_char (c : Char) : Char :=
  if 'A' ≤ c ∧ c ≤ 'Z' then Char.ofNat (c.toNat + 32) else c

/-- `parameter_type.lower()` on ASCII strings. -/
def py_lower (s : String) : String := ⟨s.data.map py_lower_char⟩

/-- Representation chosen by `vector_fit` (lines 274-286): returns the
chosen network representation together with a flag recording whether the
fallback warning was issued.  An unsupported selector warns and proceeds
with `"s"`. -/
def vector_fit_select (parameter_type : String) : String × Bool :=
  if py_lower parameter_type = "s" then ("s", false)
  else if py_lower parameter_type = "z" then ("z", false)
  else if py_lower parameter_type = "y" then ("y", false)
  else ("s", true)

/-- Representation chosen by `get_rms_error` (lines 714-721): an
unsupported selector raises `ValueError`. -/
def get_rms_error_select (parameter_type : String) : Except String String :=
  if py_lower parameter_type = "s" then .ok "s"
  else if py_lower parameter_type = "z" then .ok "z"
  else if py_lower parameter_type = "y" then .ok "y"
  else .error ("Invalid parameter type `" ++ parameter_type ++
      "`. Valid options: `s`, `z`, or `y`")

/- ### Pole update in the relocation loop (`vector_fit` lines 476-483)

    poles_new = np.linalg.eigvals(H)
    poles = poles_new[np.nonzero(poles_new.imag >= 0)]
    poles.real = -1 * np.abs(poles.real)

The eigenvalues `poles_new` of the test matrix are external input; the
filter and the sign flip are embedded. -/

/-- Pole update at the end of each relocation iteration: keep the
eigenvalues with non-negative imaginary part and replace each real part by
the negation of its absolute value. -/
def update_poles (poles_new : List (ℚ × ℚ)) : List (ℚ × ℚ) :=
  (poles_new.filter fun p => 0 ≤ p.2).map fun p => (-|p.1|, p.2)

/- ### Convergence bookkeeping in the relocation loop (lines 485-539)

    stop = False
    if delta_max < self.max_tol:
        if converged:
            stop = True
        else:
            converged = True
    else:
        if converged:
            converged = False
    iterations -= 1
    ...
    if stop:
        iterations = 0

One `delta_max` value is appended to `delta_max_history` per iteration; the
values themselves come from the least-squares singular values and are
external input, so the loop is embedded as a function of the sequence of
deltas. -/

/-- One execution of the convergence bookkeeping: given the `converged`
flag and this iteration's `delta_max`, returns `(stop, converged)` for the
bottom of the loop body. -/
def stop_step (max_tol : ℚ) (converged : Bool) (delta_max : ℚ) : Bool × Bool :=
  if delta_max < max_tol then (converged, true) else (false, false)

/-- Runs the convergence bookkeeping over the sequence of recorded
`delta_max` values (one per iteration, at most the iteration budget).
Returns `some k` when `stop` is set during iteration `k` (0-based), ending
the loop there; `none` when the loop instead exhausts its budget. -/
def reloc_stop_index (max_tol : ℚ) : List ℚ → Bool → Option ℕ
  | [], _ => none
  | d :: ds, converged =>
      let r := stop_step max_tol converged d
      if r.1 then some 0 else (reloc_stop_index max_tol ds r.2).map (· + 1)

/- ### Outer/inner loop structure of `passivity_enforce_y_or_r`
(lines 1562-1633)

    iter_out = 0
    niter_out = 60
    niter_in = 2
    break_outer = False
    while iter_out <= niter_out:
        if break_outer:
            break
        for iter_in in range(niter_in):
            ... (may set break_outer and `break`, or `break` directly) ...
        iter_out += 1

Whether an iteration breaks is decided by passivity tests on the perturbed
model (external numeric input), so the loop skeleton is embedded as a
function of those decisions. -/

/-- `niter_out = 60` (line 1563). -/
def niter_out : ℕ := 60

/-- `niter_in = 2` (line 1564). -/
def niter_in : ℕ := 2

/-- Auxiliary recursion over the remaining values of `iter_out`: `brk` is
the current `break_outer` flag, `breaks k` tells whether iteration `k` sets
`break_outer`. Returns the list of `iter_out` values whose loop body runs
the inner loop. -/
def outer_iters_aux (breaks : ℕ → Bool) : List ℕ → Bool → List ℕ
  | [], _ => []
  | k :: ks, brk => if brk then [] else k :: outer_iters_aux breaks ks (breaks k)

/-- The `iter_out` values of `passivity_enforce_y_or_r` whose body executes
the inner loop: the `while iter_out <= niter_out` loop visits
`iter_out = 0, 1, ..., niter_out` and stops early once `break_outer` is
set. -/
def outer_iters (breaks : ℕ → Bool) : List ℕ :=
  outer_iters_aux breaks (List.range (niter_out + 1)) false

/-- Number of passes of the inner `for iter_in in range(niter_in)` loop
that start executing, when `inner_brk k` tells whether pass `k` breaks out
of the loop. -/
def inner_pass_count_aux (inner_brk : ℕ → Bool) : List ℕ → ℕ
  | [] => 0
  | k :: ks => 1 + (if inner_brk k then 0 else inner_pass_count_aux inner_brk ks)

/-- Number of inner passes executed in one outer iteration of
`passivity_enforce_y_or_r`. -/
def inner_pass_count (inner_brk : ℕ → Bool) : ℕ :=
  inner_pass_count_aux inner_brk (List.range niter_in)

/- ### Complex arithmetic on `ℚ × ℚ` pairs (real part, imaginary part) -/

/-- Complex addition. -/
def cadd (a b : ℚ × ℚ) : ℚ × ℚ := (a.1 + b.1, a.2 + b.2)

/-- Complex division `a / b` (with the field convention `x / 0 = 0`). -/
def cdiv (a b : ℚ × ℚ) : ℚ × ℚ :=
  let d := b.1 ^ 2 + b.2 ^ 2
  ((a.1 * b.1 + a.2 * b.2) / d, (a.2 * b.1 - a.1 * b.2) / d)

/-- Complex subtraction. -/
def csub (a b : ℚ × ℚ) : ℚ × ℚ := (a.1 - b.1, a.2 - b.2)

/-- Complex conjugate. -/
def cconj (a : ℚ × ℚ) : ℚ × ℚ := (a.1, -a.2)

/-- Scaling by a real scalar. -/
def csmul (c : ℚ) (a : ℚ × ℚ) : ℚ × ℚ := (c * a.1, c * a.2)

/- ### `get_model_response` (lines 2835-2910)

If any of the four model attributes is `None` the function *warns*
("Returning a zero-vector; ...") and returns `np.zeros_like(freqs)`; it
does not raise.  Otherwise it evaluates the pole-residue model at
`s = 2j*pi*f`. -/

/-- `get_model_response(i, j, freqs)`: the response of the fitted model at
the given frequencies, or a zero vector (with a warning, not an error) when
any model attribute is still `None`. -/
def get_model_response (pi : ℚ) (m : OptModel) (i j : ℕ) (freqs : List ℚ) :
    List (ℚ × ℚ) :=
  match m.poles, m.residues, m.proportional_coeff, m.constant_coeff with
  | some poles, some residues, some prop, some const =>
      let n_ports := Nat.sqrt const.length
      let i_response := i * n_ports + j
      let res := residues.getD i_response []
      freqs.map fun f =>
        let s : ℚ × ℚ := (0, 2 * pi * f)
        let base := cadd (csmul (prop.getD i_response 0) s) (const.getD i_response 0, 0)
        (List.range poles.length).foldl
          (fun resp k =>
            let pole := poles.getD k (0, 0)
            let r := res.getD k (0, 0)
            if pole.2 = 0 then cadd resp (cdiv r (csub s pole))
            else cadd resp (cadd (cdiv r (csub s pole)) (cdiv (cconj r) (csub s (cconj pole)))))
          base
  | _, _, _, _ => freqs.map fun _ => (0, 0)

/- ### `_get_ABCDE` preconditions (lines 767-775)

    if self.poles is None:
        raise ValueError("self.poles = None; nothing to do. ...")
    if self.residues is None: ...
    if self.proportional_coeff is None: ...
    if self.constant_coeff is None: ...

The subsequent assembly of the state-space matrices A, B, C, D, E is plain
re-arrangement of the four validated attributes; the embedding returns the
validated attributes themselves, which is all the error-handling claims
need. -/

/-- `_get_ABCDE()`: raises `ValueError` when any of the four model
attributes is still `None`, otherwise succeeds with the validated model
data (from which the state-space matrices are assembled). -/
def get_ABCDE (m : OptModel) :
    Except String (List (ℚ × ℚ) × List (List (ℚ × ℚ)) × List ℚ × List ℚ) :=
  match m.poles with
  | none => .error "self.poles = None; nothing to do. You need to run vector_fit() first."
  | some poles =>
  match m.residues with
  | none => .error "self.residues = None; nothing to do. You need to run vector_fit() first."
  | some residues =>
  match m.proportional_coeff with
  | none => .error "self.proportional_coeff = None; nothing to do. You need to run vector_fit() first."
  | some prop =>
  match m.constant_coeff with
  | none => .error "self.constant_coeff = None; nothing to do. You need to run vector_fit() first."
  | some const => .ok (poles, residues, prop, const)

/- ### Scattering-route `passivity_enforce` model update (lines 1340-1527)

The iterative singular-value perturbation only mutates the local matrices
`C_t` and `D_t` (both produced by `_get_ABCDE`, hence fresh copies of model
data); the model itself is only written at lines 1496-1516:

    for i in range(n_ports):
        k = 0
        for j in range(n_ports):
            i_response = i * n_ports + j
            z = 0
            for pole in self.poles:
                if np.imag(pole) == 0.0:
                    self.residues[i_response, z] = C_t[i, k]; k += 1
                else:
                    self.residues[i_response, z] = C_t[i, k] + 1j * C_t[i, k + 1]; k += 2
                z += 1
            if D_t is not None:
                self.constant_coeff[i_response] = D_t[i, j]

`D_t` is `None` exactly when the constant matrix `D` was all zero
(lines 1400-1403).  The final `C_t`/`D_t` values are outputs of the
least-squares iteration and enter as parameters. -/

/-- Number of columns of `C_t` consumed per port block: one per real pole,
two per complex-conjugate pole. -/
def pole_width (poles : List (ℚ × ℚ)) : ℕ :=
  poles.foldr (fun p acc => (if p.2 = 0 then 1 else 2) + acc) 0

/-- One row of the written-back residues: walks the pole list, consuming
one `C_t` column per real pole and two per complex pole starting at column
`k`. -/
def residues_row_from_Ct (ct : ℕ → ℚ) : List (ℚ × ℚ) → ℕ → List (ℚ × ℚ)
  | [], _ => []
  | p :: ps, k =>
      if p.2 = 0 then (ct k, 0) :: residues_row_from_Ct ct ps (k + 1)
      else (ct k, ct (k + 1)) :: residues_row_from_Ct ct ps (k + 2)

/-- The write-back of the perturbed matrices into the model
(lines 1496-1516): residues are rebuilt from `C_t`, and the constants are
rebuilt from `D_t` only when `D_t` is present. -/
def passivity_enforce_writeback (m : Model) (Ct : ℕ → ℕ → ℚ)
    (Dt : Option (ℕ → ℕ → ℚ)) : Model :=
  let n_ports := Nat.sqrt m.constant_coeff.length
  { m with
    residues :=
      (List.range n_ports).flatMap fun i =>
        (List.range n_ports).map fun j =>
          residues_row_from_Ct (Ct i) m.poles (j * pole_width m.poles)
    constant_coeff :=
      match Dt with
      | none => m.constant_coeff
      | some dt =>
          (List.range n_ports).flatMap fun i =>
            (List.range n_ports).map fun j => dt i j }

/-- `passivity_enforce(parameter_type="s")` as a transformation of the
model state: if the model is already passive the function returns without
touching it (lines 1353-1356); otherwise it writes back the perturbed
`C_t` and, only when a constant term was fitted (`D` nonzero,
lines 1400-1403), the perturbed `D_t`. -/
def passivity_enforce_s (m : Model) (already_passive : Bool)
    (Ct : ℕ → ℕ → ℚ) (DtFinal : ℕ → ℕ → ℚ) : Model :=
  if already_passive then m
  else
    passivity_enforce_writeback m Ct
      (if m.constant_coeff.any (· ≠ 0) then some DtFinal else none)

/- ### `write_npz` / `read_npz` (lines 2752-2833)

`write_npz` stores the four attributes under the labels `poles`,
`residues`, `proportionals`, `constants`; `read_npz` loads them, checks the
shape invariant

    n_ports = int(np.sqrt(len(constant_coeff)))
    n_resp = n_ports ** 2
    np.shape(residues)[0] == np.shape(proportional_coeff)[0]
        == np.shape(constant_coeff)[0] == n_resp

and either assigns all four attributes or raises `ValueError`.  The `.npz`
container is modelled as a record of the four labeled arrays. -/

/-- The labeled arrays of a coefficient `.npz` file. -/
structure NpzFile where
  poles : List (ℚ × ℚ)
  residues : List (List (ℚ × ℚ))
  proportionals : List ℚ
  constants : List ℚ
deriving DecidableEq, Repr

/-- `write_npz`: stores the four model attributes under their labels. -/
def write_npz (m : Model) : NpzFile :=
  ⟨m.poles, m.residues, m.proportional_coeff, m.constant_coeff⟩

/-- `read_npz`: loads the four labeled arrays, enforcing the shape
invariant against `n_resp = n_ports ** 2` where
`n_ports = int(np.sqrt(len(constant_coeff)))`. -/
def read_npz (f : NpzFile) : Except String Model :=
  if f.residues.length = f.proportionals.length ∧
      f.proportionals.length = f.constants.length ∧
      f.constants.length = Nat.sqrt f.constants.length ^ 2 then
    .ok ⟨f.poles, f.residues, f.proportionals, f.constants⟩
  else
    .error "The shapes of the provided parameters are not compatible."

/- ### Passivity-test band assembly, scattering route
(`passivity_test`, lines 996-1043)

    for sqrt_eigenval in np.sqrt(P_eigs):
        if np.real(sqrt_eigenval) == 0.0:
            freqs_violation.append(np.imag(sqrt_eigenval) / 2 / np.pi)
    ... append 0.0 if missing, np.sort ...
    for i, freq in enumerate(freqs_violation):
        if i == len(freqs_violation) - 1:
            f_start, f_stop, f_center = freq, np.inf, 1.1 * freq
        else:
            f_start, f_stop = freq, freqs_violation[i + 1]
            f_center = 0.5 * (f_start + f_stop)
        [band appended iff some singular value of S(f_center) exceeds 1]

The eigenvalues of the half-size test matrix and the SVD of `S` at the band
centre are external numeric input: the former enter through the sorted
crossover list, the latter through the predicate `violAt` (true iff some
singular value at that frequency exceeds 1). -/

/-- Conversion of a purely imaginary eigenvalue square root into a border
frequency in the scattering route (line 1003): `im / 2 / pi`, i.e. Hz. -/
def s_root_to_freq (pi root_im : ℚ) : ℚ := root_im / 2 / pi

/-- Band assembly of the scattering-route `passivity_test` over the sorted
crossover frequencies: each adjacent pair bounds a candidate band, the last
frequency starts the unbounded band with `f_stop = np.inf` (modelled `⊤`);
a band is kept iff the model violates passivity at the band centre. -/
def s_bands (violAt : ℚ → Bool) : List ℚ → List (ℚ × WithTop ℚ)
  | [] => []
  | [f] => if violAt (11 / 10 * f) then [(f, ⊤)] else []
  | f :: g :: rest =>
      if violAt ((f + g) / 2) then (f, (g : WithTop ℚ)) :: s_bands violAt (g :: rest)
      else s_bands violAt (g :: rest)

/- ### Passivity-test band assembly, admittance route
(`_passivity_test_y`, lines 1093-1151)

    mid_w[0] = sing_w[0] / 2.0
    mid_w[-1] = 2 * sing_w[-1]
    mid_w[k + 1] = (sing_w[k] + sing_w[k + 1]) / 2.0
    [viol[k] = 1 iff some eigenvalue of Re Y(j*mid_w[k]) is negative]
    for k in range(len(mid_w)):
        if viol[k] == 1:
            if k == 0:              intervals[c] = [0, sing_w[0]]
            elif k == len(mid_w)-1: intervals[c] = [sing_w[k-1], 1e16]
            else:                   intervals[c] = [sing_w[k-1], sing_w[k]]
    [then merge entries whose second components coincide]

The crossover values `sing_w` are in angular frequency (no division by
2*pi) and the unbounded band is closed with the finite sentinel `1e16`. -/

/-- Midpoint frequencies `mid_w` of the admittance route. -/
def y_mid (singW : List ℚ) (k : ℕ) : ℚ :=
  if k = 0 then singW.getD 0 0 / 2
  else if k = singW.length then 2 * singW.getD (singW.length - 1) 0
  else (singW.getD (k - 1) 0 + singW.getD k 0) / 2

/-- The interval recorded by the admittance route for a violating
midpoint index `k` (lines 1128-1136): below the first crossover, above the
last crossover (closed with the sentinel `1e16`), or between two adjacent
crossovers. -/
def y_interval_at (singW : List ℚ) (k : ℕ) : ℚ × WithTop ℚ :=
  if k = 0 then ((0 : ℚ), (singW.getD 0 0 : WithTop ℚ))
  else if k = singW.length then
    (singW.getD (k - 1) 0, ((10 ^ 16 : ℚ) : WithTop ℚ))
  else (singW.getD (k - 1) 0, (singW.getD k 0 : WithTop ℚ))

/-- Interval construction of the admittance route (lines 1124-1137): one
interval per violating midpoint. -/
def y_intervals (violAt : ℚ → Bool) (singW : List ℚ) : List (ℚ × WithTop ℚ) :=
  (List.range (singW.length + 1)).filterMap fun k =>
    if violAt (y_mid singW k) then some (y_interval_at singW k) else none

/-- The overlap-merging pass of the admittance route (lines 1141-1150):
when two consecutive intervals have the same second component, the earlier
one is deleted and the later one inherits the earlier start. -/
def y_merge_aux (prev : ℚ × WithTop ℚ) :
    List (ℚ × WithTop ℚ) → List (ℚ × WithTop ℚ)
  | [] => [prev]
  | cur :: rest =>
      if prev.2 = cur.2 then y_merge_aux prev rest
      else prev :: y_merge_aux cur rest

/-- Entry point of the merging pass. -/
def y_merge : List (ℚ × WithTop ℚ) → List (ℚ × WithTop ℚ)
  | [] => []
  | x :: xs => y_merge_aux x xs

/-- `_passivity_test_y` band list, as a function of the sorted crossover
angular frequencies and the midpoint violation predicate; an empty
crossover list returns no bands (lines 1088-1089). -/
def passivity_test_y (violAt : ℚ → Bool) (singW : List ℚ) :
    List (ℚ × WithTop ℚ) :=
  if singW.isEmpty then [] else y_merge (y_intervals violAt singW)

/- ### Passivity-test band assembly, reflection route
(`_passivity_test_r`, lines 1167-1204)

    freqtest = np.linspace(0.1, np.max(freq) * 1.6, 99999); insert 0.0
    non_passive = np.where(np.abs(S) >= 1.0)[0]
    interval_indices = self._find_limits_of_violation(violations=non_passive)
    for _i, interval in enumerate(interval_indices):
        min_freq = 2 * np.pi * freqtest[interval[0]]
        max_freq = 2 * np.pi * freqtest[interval[1]]
        if min_freq == max_freq:
            if max_freq == 2 * np.pi * np.max(freqtest):   max_freq = 1e16
            elif max_freq == 2 * np.pi * np.min(freqtest): max_freq = freqtest[interval[1] + 1]
            else: min_freq *= 7 / 8; max_freq *= 9 / 8
        else:
            if max_freq == 2 * np.pi * np.max(freqtest):   max_freq = 1e16

Band edges are angular frequencies (`2 * np.pi * f`), with `1e16` closing
an unbounded band.  The sampled `|S|` values are external input and enter
through the violating index list. -/

/-- `np.max` over a list (the empty case does not occur in the code). -/
def np_max : List ℚ → ℚ
  | [] => 0
  | x :: xs => xs.foldl max x

/-- `np.min` over a list (the empty case does not occur in the code). -/
def np_min : List ℚ → ℚ
  | [] => 0
  | x :: xs => xs.foldl min x

/-- Conversion of one `(min_index, max_index)` violation run into a
frequency interval in the reflection route (lines 1186-1203). -/
def r_interval_of (pi : ℚ) (freqtest : List ℚ) (iv : ℕ × ℕ) :
    ℚ × WithTop ℚ :=
  let minFreq := 2 * pi * freqtest.getD iv.1 0
  let maxFreq := 2 * pi * freqtest.getD iv.2 0
  if minFreq = maxFreq then
    if maxFreq = 2 * pi * np_max freqtest then (minFreq, ((10 ^ 16 : ℚ) : WithTop ℚ))
    else if maxFreq = 2 * pi * np_min freqtest then
      (minFreq, (freqtest.getD (iv.2 + 1) 0 : WithTop ℚ))
    else (7 / 8 * minFreq, ((9 / 8 * maxFreq : ℚ) : WithTop ℚ))
  else
    if maxFreq = 2 * pi * np_max freqtest then (minFreq, ((10 ^ 16 : ℚ) : WithTop ℚ))
    else (minFreq, (maxFreq : WithTop ℚ))

/-- `_passivity_test_r` band list, as a function of the frequency grid and
the violating sample indices. -/
def passivity_test_r (pi : ℚ) (freqtest : List ℚ) (non_passive : List ℕ) :
    List (ℚ × WithTop ℚ) :=
  (find_limits_of_violation non_passive).map (r_interval_of pi freqtest)

/-! ## Theorems -/

/- ### Claim C2: pole invariants after each relocation iteration -/

/-- **C2, counterexample.** The claim asserts a strictly negative real part
for every stored pole.  For the relocated eigenvalue `0 + 1j` (a purely
imaginary eigenvalue of the real test matrix `H`), the update keeps the
pole and `-1 * np.abs(0) = 0`: the stored pole `(0, 1)` has real part `0`,
which is not strictly negative. -/
theorem claim_C2_counterexample :
    ((0 : ℚ), (1 : ℚ)) ∈ update_poles [((0 : ℚ), (1 : ℚ))] ∧ ¬ ((0 : ℚ) < 0) := by
  decide

/-- **C2, amended.** After every iteration of the pole-relocation loop,
every stored pole has non-negative imaginary part (only the conjugate-pair
representative is kept) and non-positive real part (the real part is
replaced by the negation of its absolute value, hence strictly negative
exactly when the relocated eigenvalue's real part is nonzero). -/
theorem claim_C2_pole_update_invariant (l : List (ℚ × ℚ)) (p : ℚ × ℚ)
    (hp : p ∈ update_poles l) : 0 ≤ p.2 ∧ p.1 ≤ 0 := by
  unfold update_poles at hp
  rcases List.mem_map.mp hp with ⟨q, hq, rfl⟩
  exact ⟨by simpa using of_decide_eq_true (List.mem_filter.mp hq).2,
    neg_nonpos.mpr (abs_nonneg _)⟩

/-- **C2, witness.** The invariant evaluated on the concrete eigenvalue
list `[1 + 2j]`, whose updated pole is `-1 + 2j`. -/
theorem claim_C2_witness :
    0 ≤ ((-1 : ℚ), (2 : ℚ)).2 ∧ ((-1 : ℚ), (2 : ℚ)).1 ≤ 0 :=
  claim_C2_pole_update_invariant [(1, 2)] (-1, 2) (by decide)

/- ### Claim C5: the d_res guard -/

/-- **C5, counterexample.** The claim asserts the sign computation
`d_res / np.abs(d_res)` never divides by zero.  At the possible
least-squares result `d_res = 0` the guard branch is taken
(`|0| < 1e-8`), yet the divisor `np.abs(d_res)` is exactly `0`: the sign
computation is a division by zero (`0.0 / 0.0`, a NaN in the code). -/
theorem claim_C5_counterexample :
    (clamp_d_res 0).2 = true ∧ |(0 : ℚ)| = 0 := by
  norm_num [clamp_d_res, tol_res]

/-- **C5, amended.** In each pole-relocation iteration, whenever the
least-squares coefficient `d_res` is nonzero and `|d_res| < 1e-8`, it is
replaced by `sign(d_res) * 1e-8` and the warning is issued; for
`d_res = 0` the branch is still taken but its sign computation divides by
zero. -/
theorem claim_C5_d_res_guard (d : ℚ) (hne : d ≠ 0) (hlt : |d| < tol_res) :
    clamp_d_res d = ((if 0 < d then tol_res else -tol_res), true) := by
  unfold clamp_d_res
  rw [if_pos hlt]
  rcases lt_trichotomy 0 d with h | h | h
  · rw [if_pos h, abs_of_pos h, div_self hne, mul_one]
  · exact absurd h.symm hne
  · rw [if_neg (not_lt.mpr h.le), abs_of_neg h, div_neg, div_self hne,
      mul_neg, mul_one]

/-- **C5, witness.** The guard evaluated at the concrete small value
`d_res = 1e-9`. -/
theorem claim_C5_witness :
    clamp_d_res (1 / 10 ^ 9) =
      ((if 0 < (1 / 10 ^ 9 : ℚ) then tol_res else -tol_res), true) :=
  claim_C5_d_res_guard (1 / 10 ^ 9) (by norm_num)
    (by rw [abs_of_pos] <;> norm_num [tol_res])

/- ### Claim C9: unsupported response-type selectors -/

/-- **C9, counterexample.** The claim asserts that `vector_fit` fails with
a fatal configuration error on an unsupported selector and does not
proceed with a substitute representation.  In fact `vector_fit` with a
selector such as "x" issues a warning (second component `true`) and
proceeds with the scattering representation "s". -/
theorem claim_C9_counterexample :
    vector_fit_select "x" = ("s", true) := by decide

/-- **C9, amended.** For any selector whose lowercase form is none of
"s", "z", "y": `get_rms_error` raises a fatal `ValueError`, while
`vector_fit` instead issues a warning and proceeds with the scattering
representation. -/
theorem claim_C9_selector (p : String) (hs : py_lower p ≠ "s")
    (hz : py_lower p ≠ "z") (hy : py_lower p ≠ "y") :
    vector_fit_select p = ("s", true) ∧
    get_rms_error_select p =
      .error ("Invalid parameter type `" ++ p ++ "`. Valid options: `s`, `z`, or `y`") := by
  unfold vector_fit_select get_rms_error_select
  rw [if_neg hs, if_neg hz, if_neg hy, if_neg hs, if_neg hz, if_neg hy]
  exact ⟨rfl, rfl⟩

/-- **C9, witness.** The selector behaviour evaluated at the concrete
unsupported selector "q". -/
theorem claim_C9_witness :
    vector_fit_select "q" = ("s", true) ∧
    get_rms_error_select "q" =
      .error ("Invalid parameter type `" ++ "q" ++ "`. Valid options: `s`, `z`, or `y`") :=
  claim_C9_selector "q" (by decide) (by decide) (by decide)

/- ### Claim C6: loop bounds of passivity_enforce_y_or_r -/

/-- Each outer iteration consumes one entry of the remaining `iter_out`
list, so the loop body runs at most once per entry. -/
theorem outer_iters_aux_length_le (breaks : ℕ → Bool) :
    ∀ (ks : List ℕ) (brk : Bool),
      (outer_iters_aux breaks ks brk).length ≤ ks.length := by
  intro ks
  induction ks with
  | nil => intro brk; simp [outer_iters_aux]
  | cons k ks ih =>
      intro brk
      cases brk with
      | true => simp [outer_iters_aux]
      | false =>
          simpa [outer_iters_aux] using Nat.succ_le_succ (ih (breaks k))

/-- Each inner pass consumes one entry of `range(niter_in)`. -/
theorem inner_pass_count_aux_le (f : ℕ → Bool) :
    ∀ ks : List ℕ, inner_pass_count_aux f ks ≤ ks.length := by
  intro ks
  induction ks with
  | nil => simp [inner_pass_count_aux]
  | cons k ks ih =>
      by_cases hf : f k
      · simp [inner_pass_count_aux, hf]
      · simp [inner_pass_count_aux, hf]
        omega

/-- **C6, counterexample.** The claim asserts at most 60 outer iterations
with an inner loop of exactly 2 passes.  When no break condition ever
fires, the `while iter_out <= 60` loop starting from `iter_out = 0` runs
its body 61 times; and when the passivity test succeeds during the first
inner pass, the inner loop breaks after a single pass. -/
theorem claim_C6_counterexample :
    (outer_iters fun _ => false).length = 61 ∧
    ¬ ((outer_iters fun _ => false).length ≤ 60) ∧
    inner_pass_count (fun _ => true) = 1 := by decide

/-- **C6, amended.** `passivity_enforce_y_or_r` executes at most 61 outer
iterations (`iter_out` running from 0 through `niter_out = 60`
inclusively), each containing at most `niter_in = 2` inner passes (exactly
2 whenever no break condition fires inside the inner loop), and therefore
always terminates within that budget. -/
theorem claim_C6_loop_bounds :
    (∀ breaks : ℕ → Bool, (outer_iters breaks).length ≤ niter_out + 1) ∧
    (∀ inner_brk : ℕ → Bool, inner_pass_count inner_brk ≤ niter_in) ∧
    inner_pass_count (fun _ => false) = niter_in := by
  refine ⟨fun breaks => ?_, fun inner_brk => ?_, by decide⟩
  · simpa [outer_iters] using
      outer_iters_aux_length_le breaks (List.range (niter_out + 1)) false
  · simpa [inner_pass_count] using
      inner_pass_count_aux_le inner_brk (List.range niter_in)

/- ### Claim C7: frame of the scattering-route passivity_enforce -/

/-- **C7.** A call to the scattering-route `passivity_enforce` mutates in
place only the residues and (when a constant term was fitted, i.e. the `D`
matrix is nonzero) the `constant_coeff` of the model; the `poles` and
`proportional_coeff` fields are identical before and after the call, and
when every constant coefficient is zero the `constant_coeff` field is also
untouched. -/
theorem claim_C7_frame (m : Model) (already : Bool) (Ct : ℕ → ℕ → ℚ)
    (Dt : ℕ → ℕ → ℚ) :
    (passivity_enforce_s m already Ct Dt).poles = m.poles ∧
    (passivity_enforce_s m already Ct Dt).proportional_coeff = m.proportional_coeff ∧
    ((∀ c ∈ m.constant_coeff, c = 0) →
      (passivity_enforce_s m already Ct Dt).constant_coeff = m.constant_coeff) := by
  cases already with
  | true => exact ⟨rfl, rfl, fun _ => rfl⟩
  | false =>
      refine ⟨rfl, rfl, fun h => ?_⟩
      have hfalse : (m.constant_coeff.any fun c => decide ¬(c = 0)) = false := by
        rw [List.any_eq_false]
        intro c hc
        simpa using h c hc
      show (passivity_enforce_writeback m Ct
        (if m.constant_coeff.any (· ≠ 0) then some Dt else none)).constant_coeff =
          m.constant_coeff
      rw [hfalse]
      rfl

/-- **C7, witness.** The frame property evaluated on a concrete one-port
model fitted without a constant term. -/
theorem claim_C7_witness :
    (passivity_enforce_s ⟨[(1, 0)], [[(2, 0)]], [0], [0]⟩ false
        (fun _ _ => 5) (fun _ _ => 7)).poles = [(1, 0)] ∧
    (passivity_enforce_s ⟨[(1, 0)], [[(2, 0)]], [0], [0]⟩ false
        (fun _ _ => 5) (fun _ _ => 7)).proportional_coeff = [0] ∧
    (passivity_enforce_s ⟨[(1, 0)], [[(2, 0)]], [0], [0]⟩ false
        (fun _ _ => 5) (fun _ _ => 7)).constant_coeff = [0] :=
  ⟨(claim_C7_frame _ _ _ _).1, (claim_C7_frame _ _ _ _).2.1,
    (claim_C7_frame _ _ _ _).2.2 (by decide)⟩

/- ### Claim C8: npz round-trip -/

/-- **C8.** For every fitted model whose fields satisfy the N² shape
invariant, writing with `write_npz` and reading back with `read_npz`
succeeds and restores all four fields. -/
theorem claim_C8_roundtrip (m : Model)
    (h1 : m.residues.length = m.constant_coeff.length)
    (h2 : m.proportional_coeff.length = m.constant_coeff.length)
    (h3 : ∃ n : ℕ, m.constant_coeff.length = n ^ 2) :
    read_npz (write_npz m) = .ok m := by
  obtain ⟨n, hn⟩ := h3
  unfold read_npz write_npz
  rw [if_pos]
  exact ⟨h1.trans h2.symm, h2, by rw [hn, Nat.sqrt_eq']⟩

/-- **C8, witness.** The round trip evaluated on a concrete one-port
model. -/
theorem claim_C8_witness :
    read_npz (write_npz ⟨[(1, 2)], [[(1, 0)]], [0], [5]⟩) =
      .ok ⟨[(1, 2)], [[(1, 0)]], [0], [5]⟩ :=
  claim_C8_roundtrip ⟨[(1, 2)], [[(1, 0)]], [0], [5]⟩ rfl rfl ⟨1, rfl⟩

/- ### Claim C1: convergence hysteresis of the pole-relocation loop -/

/-- Invariant of the convergence bookkeeping: if the loop run on the delta
sequence `ds` starting with flag `conv` stops at iteration `k`, then the
delta of iteration `k` is below tolerance, a stop at the very first
iteration requires the incoming flag to be set, and a stop at any later
iteration requires the previous delta to be below tolerance as well. -/
theorem reloc_stop_index_spec (max_tol : ℚ) :
    ∀ (ds : List ℚ) (conv : Bool) (k : ℕ),
      reloc_stop_index max_tol ds conv = some k →
      k < ds.length ∧ ds.getD k 0 < max_tol ∧
        (k = 0 → conv = true) ∧ (1 ≤ k → ds.getD (k - 1) 0 < max_tol) := by
  intro ds
  induction ds with
  | nil => intro conv k h; simp [reloc_stop_index] at h
  | cons d ds ih =>
      intro conv k h
      rw [show reloc_stop_index max_tol (d :: ds) conv =
          if (stop_step max_tol conv d).1 = true then some 0
          else (reloc_stop_index max_tol ds
            (stop_step max_tol conv d).2).map (· + 1) from rfl] at h
      by_cases hd : d < max_tol
      · have hs : stop_step max_tol conv d = (conv, true) := by
          simp [stop_step, hd]
        rw [hs] at h
        cases conv with
        | true =>
            simp at h
            subst h
            exact ⟨by simp, by simpa using hd, fun _ => rfl, by omega⟩
        | false =>
            simp only [Bool.false_eq_true, if_false, Option.map_eq_some'] at h
            obtain ⟨j, hrec, rfl⟩ := h
            obtain ⟨hj1, hj2, hj3, hj4⟩ := ih true j hrec
            refine ⟨by simpa using Nat.succ_lt_succ hj1, by simpa using hj2,
              by omega, fun _ => ?_⟩
            rcases Nat.eq_zero_or_pos j with rfl | hjpos
            · simpa using hd
            · obtain ⟨i, rfl⟩ : ∃ i, j = i + 1 := ⟨j - 1, by omega⟩
              simpa using hj4 (by omega)
      · have hs : stop_step max_tol conv d = (false, false) := by
          simp [stop_step, hd]
        rw [hs] at h
        simp only [Bool.false_eq_true, if_false, Option.map_eq_some'] at h
        obtain ⟨j, hrec, rfl⟩ := h
        obtain ⟨hj1, hj2, hj3, hj4⟩ := ih false j hrec
        have hjpos : 1 ≤ j := by
          rcases Nat.eq_zero_or_pos j with rfl | hjpos
          · exact absurd (hj3 rfl) (by simp)
          · exact hjpos
        refine ⟨by simpa using Nat.succ_lt_succ hj1, by simpa using hj2,
          by omega, fun _ => ?_⟩
        obtain ⟨i, rfl⟩ : ∃ i, j = i + 1 := ⟨j - 1, by omega⟩
        simpa using hj4 (by omega)

/-- **C1.** The pole-relocation loop declares convergence and stops only
when the two most recently recorded relative singular-value changes
(`delta_max_history`) are both below `max_tol`: a stop at iteration `k`
implies `k ≥ 1` and `delta_max` of iterations `k-1` and `k` both below
tolerance.  In particular a single sub-tolerance delta never stops the
loop, and without a stop the loop runs until the budget is exhausted. -/
theorem claim_C1_convergence_hysteresis (max_tol : ℚ) (deltas : List ℚ) (k : ℕ)
    (h : reloc_stop_index max_tol deltas false = some k) :
    1 ≤ k ∧ deltas.getD (k - 1) 0 < max_tol ∧ deltas.getD k 0 < max_tol := by
  obtain ⟨hlen, hk, h0, h1⟩ := reloc_stop_index_spec max_tol deltas false k h
  have hge : 1 ≤ k := by
    rcases Nat.eq_zero_or_pos k with rfl | hpos
    · exact absurd (h0 rfl) (by simp)
    · exact hpos
  exact ⟨hge, h1 hge, hk⟩

/-- **C1, witness.** The stop logic evaluated on the concrete delta
sequence `[2, 1/2, 1/3]` with tolerance `1`: the loop stops at
iteration 2, after the two consecutive sub-tolerance deltas. -/
theorem claim_C1_witness :
    1 ≤ 2 ∧ [(2 : ℚ), 1/2, 1/3].getD (2 - 1) 0 < 1 ∧
      [(2 : ℚ), 1/2, 1/3].getD 2 0 < 1 :=
  claim_C1_convergence_hysteresis 1 [2, 1/2, 1/3] 2
    (by norm_num [reloc_stop_index, stop_step])

/- ### Claim C4: operations on an unfitted model -/

/-- `_get_ABCDE` raises `ValueError` whenever one of the four model
attributes is `None`. -/
theorem get_ABCDE_error_of_missing (m : OptModel)
    (h : m.poles = none ∨ m.residues = none ∨ m.proportional_coeff = none ∨
      m.constant_coeff = none) :
    ∃ e, get_ABCDE m = .error e := by
  unfold get_ABCDE
  rcases hp : m.poles with _ | p
  · exact ⟨_, rfl⟩
  · rcases hr : m.residues with _ | r
    · exact ⟨_, rfl⟩
    · rcases hpc : m.proportional_coeff with _ | pc
      · exact ⟨_, rfl⟩
      · rcases hcc : m.constant_coeff with _ | cc
        · exact ⟨_, rfl⟩
        · rcases h with h | h | h | h <;> simp_all

/-- `get_model_response` returns the zero vector (after a warning) when
one of the four model attributes is `None`. -/
theorem get_model_response_zero_of_missing (pi : ℚ) (m : OptModel)
    (i j : ℕ) (freqs : List ℚ)
    (h : m.poles = none ∨ m.residues = none ∨ m.proportional_coeff = none ∨
      m.constant_coeff = none) :
    get_model_response pi m i j freqs = freqs.map fun _ => ((0 : ℚ), 0) := by
  unfold get_model_response
  rcases hp : m.poles with _ | p
  · rfl
  · rcases hr : m.residues with _ | r
    · rfl
    · rcases hpc : m.proportional_coeff with _ | pc
      · rfl
      · rcases hcc : m.constant_coeff with _ | cc
        · rfl
        · rcases h with h | h | h | h <;> simp_all

/-- **C4, counterexample.** The claim asserts that every listed operation
raises a fatal precondition error on an unfitted model.  `get_model_response`
on a completely unfitted model instead warns and *returns* the zero vector
`np.zeros_like(freqs)`. -/
theorem claim_C4_counterexample :
    get_model_response 3 ⟨none, none, none, none⟩ 0 0 [1] = [((0 : ℚ), 0)] := rfl

/-- **C4, amended.** When any of `poles`, `residues`, `proportional_coeff`,
`constant_coeff` is `None`, the state-space construction `_get_ABCDE` (and
with it `passivity_test`, `is_passive` and `passivity_enforce`, which all
reach their model data through it) raises a fatal `ValueError`; but
`get_model_response` does not raise — it warns and returns a zero vector. -/
theorem claim_C4_preconditions (pi : ℚ) (m : OptModel) (i j : ℕ)
    (freqs : List ℚ)
    (h : m.poles = none ∨ m.residues = none ∨ m.proportional_coeff = none ∨
      m.constant_coeff = none) :
    (∃ e, get_ABCDE m = .error e) ∧
    get_model_response pi m i j freqs = freqs.map fun _ => ((0 : ℚ), 0) :=
  ⟨get_ABCDE_error_of_missing m h,
    get_model_response_zero_of_missing pi m i j freqs h⟩

/-- **C4, witness.** The precondition behaviour evaluated on a concrete
model whose poles are unset. -/
theorem claim_C4_witness :
    (∃ e, get_ABCDE ⟨none, some [], some [], some []⟩ = .error e) ∧
    get_model_response 3 ⟨none, some [], some [], some []⟩ 0 0 [1] =
      [(1 : ℚ)].map fun _ => ((0 : ℚ), 0) :=
  claim_C4_preconditions 3 ⟨none, some [], some [], some []⟩ 0 0 [1] (Or.inl rfl)

/- ### Claim C10: correctness of _find_limits_of_violation -/

/-- The first recorded pair of a scan in progress starts at the recorded
`min_index` and its `max_index` is at least the cursor element. -/
theorem find_limits_aux_head :
    ∀ (ys : List ℕ) (mn cur : ℕ), ∃ mx t,
      find_limits_aux mn cur ys = (mn, mx) :: t ∧ cur ≤ mx := by
  intro ys
  induction ys with
  | nil => intro mn cur; exact ⟨cur, [], rfl, le_refl _⟩
  | cons y ys ih =>
      intro mn cur
      by_cases hc : cur + 1 = y
      · obtain ⟨mx, t, heq, hle⟩ := ih mn y
        exact ⟨mx, t, by rw [find_limits_aux, if_pos hc]; exact heq, by omega⟩
      · exact ⟨cur, find_limits_aux y y ys,
          by rw [find_limits_aux, if_neg hc], le_refl _⟩

/-- Every recorded pair is ordered and its endpoints come from the scanned
data (the run start, the cursor, or a later element). -/
theorem find_limits_aux_mem :
    ∀ (ys : List ℕ) (mn cur : ℕ), mn ≤ cur →
      ∀ p ∈ find_limits_aux mn cur ys,
        p.1 ≤ p.2 ∧ (p.1 = mn ∨ p.1 ∈ ys) ∧ (p.2 = cur ∨ p.2 ∈ ys) := by
  intro ys
  induction ys with
  | nil =>
      intro mn cur hmc p hp
      simp only [find_limits_aux, List.mem_singleton] at hp
      subst hp
      exact ⟨hmc, Or.inl rfl, Or.inl rfl⟩
  | cons y ys ih =>
      intro mn cur hmc p hp
      by_cases hc : cur + 1 = y
      · rw [find_limits_aux, if_pos hc] at hp
        obtain ⟨h1, h2, h3⟩ := ih mn y (by omega) p hp
        refine ⟨h1, ?_, ?_⟩
        · rcases h2 with h | h
          · exact Or.inl h
          · exact Or.inr (List.mem_cons_of_mem _ h)
        · rcases h3 with h | h
          · exact Or.inr (h ▸ List.mem_cons_self _ _)
          · exact Or.inr (List.mem_cons_of_mem _ h)
      · rw [find_limits_aux, if_neg hc] at hp
        rcases List.mem_cons.mp hp with rfl | hp
        · exact ⟨hmc, Or.inl rfl, Or.inl rfl⟩
        · obtain ⟨h1, h2, h3⟩ := ih y y (le_refl _) p hp
          refine ⟨h1, ?_, ?_⟩
          · rcases h2 with h | h
            · exact Or.inr (h ▸ List.mem_cons_self _ _)
            · exact Or.inr (List.mem_cons_of_mem _ h)
          · rcases h3 with h | h
            · exact Or.inr (h ▸ List.mem_cons_self _ _)
            · exact Or.inr (List.mem_cons_of_mem _ h)

/-- Range-completeness: if everything from the run start to the cursor and
every later element satisfies `P`, then so does the whole integer range of
every recorded pair. -/
theorem find_limits_aux_range :
    ∀ (ys : List ℕ) (mn cur : ℕ) (P : ℕ → Prop),
      (∀ z, mn ≤ z → z ≤ cur → P z) → (∀ y ∈ ys, P y) →
      ∀ p ∈ find_limits_aux mn cur ys, ∀ x, p.1 ≤ x → x ≤ p.2 → P x := by
  intro ys
  induction ys with
  | nil =>
      intro mn cur P hpre _ p hp x h1 h2
      simp only [find_limits_aux, List.mem_singleton] at hp
      subst hp
      exact hpre x h1 h2
  | cons y ys ih =>
      intro mn cur P hpre hys p hp x h1 h2
      by_cases hc : cur + 1 = y
      · rw [find_limits_aux, if_pos hc] at hp
        refine ih mn y P ?_ (fun z hz => hys z (List.mem_cons_of_mem _ hz)) p hp x h1 h2
        intro z hz1 hz2
        rcases Nat.lt_or_ge z y with hlt | hge
        · exact hpre z hz1 (by omega)
        · have hz : z = y := by omega
          exact hz ▸ hys y (List.mem_cons_self _ _)
      · rw [find_limits_aux, if_neg hc] at hp
        rcases List.mem_cons.mp hp with rfl | hp
        · exact hpre x h1 h2
        · refine ih y y P ?_ (fun z hz => hys z (List.mem_cons_of_mem _ hz)) p hp x h1 h2
          intro z hz1 hz2
          have hz : z = y := by omega
          exact hz ▸ hys y (List.mem_cons_self _ _)

/-- On strictly increasing data, the recorded pairs are separated by gaps
of at least two (so they are pairwise disjoint and come in input order),
and every pair after the first starts strictly above the cursor run. -/
theorem find_limits_aux_pairwise :
    ∀ (ys : List ℕ) (mn cur : ℕ), List.Chain' (· < ·) (cur :: ys) →
      (find_limits_aux mn cur ys).Pairwise (fun p q => p.2 + 1 < q.1) ∧
      ∀ p ∈ find_limits_aux mn cur ys, p.1 = mn ∨ cur + 1 < p.1 := by
  intro ys
  induction ys with
  | nil =>
      intro mn cur _
      refine ⟨by simp [find_limits_aux], fun p hp => ?_⟩
      simp only [find_limits_aux, List.mem_singleton] at hp
      subst hp
      exact Or.inl rfl
  | cons y ys ih =>
      intro mn cur hch
      obtain ⟨hcy, hch2⟩ := List.chain'_cons.mp hch
      by_cases hc : cur + 1 = y
      · obtain ⟨hpw, hbd⟩ := ih mn y hch2
        constructor
        · rw [find_limits_aux, if_pos hc]
          exact hpw
        · intro p hp
          rw [find_limits_aux, if_pos hc] at hp
          rcases hbd p hp with h | h
          · exact Or.inl h
          · exact Or.inr (by omega)
      · have hcy2 : cur + 1 < y := by omega
        obtain ⟨hpw, hbd⟩ := ih y y hch2
        have hall : ∀ p ∈ find_limits_aux y y ys, cur + 1 < p.1 := by
          intro p hp
          rcases hbd p hp with h | h <;> omega
        constructor
        · rw [find_limits_aux, if_neg hc]
          exact List.pairwise_cons.mpr ⟨fun q hq => hall q hq, hpw⟩
        · intro p hp
          rw [find_limits_aux, if_neg hc] at hp
          rcases List.mem_cons.mp hp with rfl | hp
          · exact Or.inl rfl
          · exact Or.inr (hall p hp)

/-- Coverage: every element from the cursor on is inside the range of some
recorded pair. -/
theorem find_limits_aux_cover :
    ∀ (ys : List ℕ) (mn cur : ℕ), mn ≤ cur →
      ∀ x ∈ cur :: ys, ∃ p ∈ find_limits_aux mn cur ys, p.1 ≤ x ∧ x ≤ p.2 := by
  intro ys
  induction ys with
  | nil =>
      intro mn cur hmc x hx
      rcases List.mem_cons.mp hx with rfl | hx
      · exact ⟨(mn, x), by simp [find_limits_aux], hmc, le_refl _⟩
      · simp at hx
  | cons y ys ih =>
      intro mn cur hmc x hx
      by_cases hc : cur + 1 = y
      · rcases List.mem_cons.mp hx with rfl | hx
        · obtain ⟨mx, t, heq, hle⟩ := find_limits_aux_head ys mn y
          refine ⟨(mn, mx), ?_, hmc, by omega⟩
          rw [find_limits_aux, if_pos hc, heq]
          exact List.mem_cons_self _ _
        · obtain ⟨p, hp, h1, h2⟩ := ih mn y (by omega) x hx
          exact ⟨p, by rw [find_limits_aux, if_pos hc]; exact hp, h1, h2⟩
      · rcases List.mem_cons.mp hx with rfl | hx
        · refine ⟨(mn, x), ?_, hmc, le_refl _⟩
          rw [find_limits_aux, if_neg hc]
          exact List.mem_cons_self _ _
        · obtain ⟨p, hp, h1, h2⟩ := ih y y (le_refl _) x hx
          refine ⟨p, ?_, h1, h2⟩
          rw [find_limits_aux, if_neg hc]
          exact List.mem_cons_of_mem _ hp

/-- A list of gap-separated pairs has pairwise disjoint ranges: any point
determines the pair containing it uniquely. -/
theorem pairwise_gap_unique (L : List (ℕ × ℕ))
    (hpw : L.Pairwise (fun p q => p.2 + 1 < q.1)) :
    ∀ (x : ℕ), ∀ p ∈ L, ∀ q ∈ L,
      p.1 ≤ x → x ≤ p.2 → q.1 ≤ x → x ≤ q.2 → p = q := by
  induction L with
  | nil => intro x p hp; simp at hp
  | cons a L ih =>
      intro x p hp q hq hp1 hp2 hq1 hq2
      obtain ⟨ha, hpwL⟩ := List.pairwise_cons.mp hpw
      rcases List.mem_cons.mp hp with rfl | hpL
      · rcases List.mem_cons.mp hq with rfl | hqL
        · rfl
        · exact absurd (ha q hqL) (by omega)
      · rcases List.mem_cons.mp hq with rfl | hqL
        · exact absurd (ha p hpL) (by omega)
        · exact ih hpwL x p hpL q hqL hp1 hp2 hq1 hq2

/-- **C10.** For every strictly increasing index array,
`_find_limits_of_violation` returns, in input order, exactly one
`(min_index, max_index)` pair per maximal run of consecutive integers:
each pair is ordered with both endpoints drawn from the input, its whole
integer range consists of input elements, consecutive pairs are separated
by a gap of at least two (hence ascending, non-overlapping and maximal),
every input element is covered by some pair, and by exactly one pair. -/
theorem claim_C10_find_limits (l : List ℕ) (hl : l.Chain' (· < ·)) :
    (∀ p ∈ find_limits_of_violation l,
        p.1 ≤ p.2 ∧ p.1 ∈ l ∧ p.2 ∈ l ∧ ∀ x, p.1 ≤ x → x ≤ p.2 → x ∈ l) ∧
    (find_limits_of_violation l).Pairwise (fun p q => p.2 + 1 < q.1) ∧
    (∀ x ∈ l, ∃ p ∈ find_limits_of_violation l, p.1 ≤ x ∧ x ≤ p.2) ∧
    (∀ x : ℕ, ∀ p ∈ find_limits_of_violation l, ∀ q ∈ find_limits_of_violation l,
        p.1 ≤ x → x ≤ p.2 → q.1 ≤ x → x ≤ q.2 → p = q) := by
  cases l with
  | nil => refine ⟨?_, ?_, ?_, ?_⟩ <;> simp [find_limits_of_violation]
  | cons v vs =>
      have hfl : find_limits_of_violation (v :: vs) = find_limits_aux v v vs := rfl
      have hpw := (find_limits_aux_pairwise vs v v hl).1
      refine ⟨?_, ?_, ?_, ?_⟩
      · intro p hp
        rw [hfl] at hp
        obtain ⟨h1, h2, h3⟩ := find_limits_aux_mem vs v v (le_refl _) p hp
        refine ⟨h1, ?_, ?_, ?_⟩
        · rcases h2 with h | h
          · exact h ▸ List.mem_cons_self _ _
          · exact List.mem_cons_of_mem _ h
        · rcases h3 with h | h
          · exact h ▸ List.mem_cons_self _ _
          · exact List.mem_cons_of_mem _ h
        · intro x hx1 hx2
          refine find_limits_aux_range vs v v (· ∈ v :: vs) ?_
            (fun y hy => List.mem_cons_of_mem _ hy) p hp x hx1 hx2
          intro z hz1 hz2
          have hz : z = v := by omega
          exact hz ▸ List.mem_cons_self _ _
      · rw [hfl]
        exact hpw
      · intro x hx
        rw [hfl]
        exact find_limits_aux_cover vs v v (le_refl _) x hx
      · intro x p hp q hq
        rw [hfl] at hp hq
        exact pairwise_gap_unique _ hpw x p hp q hq

/-- **C10, witness.** The run decomposition evaluated on the concrete
strictly increasing index array `[0, 1, 2, 5, 6, 9]`. -/
theorem claim_C10_witness :
    (find_limits_of_violation [0, 1, 2, 5, 6, 9]).Pairwise
      (fun p q => p.2 + 1 < q.1) :=
  (claim_C10_find_limits [0, 1, 2, 5, 6, 9]
    (by simp [List.chain'_cons])).2.1

/- ### Claim C3: output contract of the three passivity-test routes -/

/-- Every scattering-route band starts at a crossover frequency, and stops
either at the next crossover frequency or at `np.inf`. -/
theorem s_bands_mem (violAt : ℚ → Bool) :
    ∀ l : List ℚ, ∀ b ∈ s_bands violAt l,
      b.1 ∈ l ∧ (b.2 = ⊤ ∨ ∃ g ∈ l, b.2 = (g : WithTop ℚ)) := by
  intro l
  induction l with
  | nil => intro b hb; simp [s_bands] at hb
  | cons f t ih =>
      cases t with
      | nil =>
          intro b hb
          by_cases hv : violAt (11 / 10 * f)
          · simp only [s_bands, if_pos hv, List.mem_singleton] at hb
            subst hb
            exact ⟨List.mem_singleton_self _, Or.inl rfl⟩
          · simp [s_bands, hv] at hb
      | cons g rest =>
          intro b hb
          rw [show s_bands violAt (f :: g :: rest) =
              if violAt ((f + g) / 2) then
                (f, (g : WithTop ℚ)) :: s_bands violAt (g :: rest)
              else s_bands violAt (g :: rest) from rfl] at hb
          have step : b ∈ s_bands violAt (g :: rest) →
              b.1 ∈ f :: g :: rest ∧
                (b.2 = ⊤ ∨ ∃ g' ∈ f :: g :: rest, b.2 = (g' : WithTop ℚ)) := by
            intro hb
            obtain ⟨h1, h2⟩ := ih b hb
            refine ⟨List.mem_cons_of_mem _ h1, ?_⟩
            rcases h2 with h | ⟨w, hw, he⟩
            · exact Or.inl h
            · exact Or.inr ⟨w, List.mem_cons_of_mem _ hw, he⟩
          by_cases hv : violAt ((f + g) / 2)
          · rw [if_pos hv] at hb
            rcases List.mem_cons.mp hb with rfl | hb
            · exact ⟨List.mem_cons_self _ _,
                Or.inr ⟨g, List.mem_cons_of_mem _ (List.mem_cons_self _ _), rfl⟩⟩
            · exact step hb
          · rw [if_neg hv] at hb
            exact step hb

/-- On sorted crossover frequencies every scattering-route band satisfies
`f_start ≤ f_stop`. -/
theorem s_bands_le (violAt : ℚ → Bool) :
    ∀ l : List ℚ, l.Pairwise (· ≤ ·) →
      ∀ b ∈ s_bands violAt l, (b.1 : WithTop ℚ) ≤ b.2 := by
  intro l
  induction l with
  | nil => intro _ b hb; simp [s_bands] at hb
  | cons f t ih =>
      cases t with
      | nil =>
          intro _ b hb
          by_cases hv : violAt (11 / 10 * f)
          · simp only [s_bands, if_pos hv, List.mem_singleton] at hb
            subst hb
            exact le_top
          · simp [s_bands, hv] at hb
      | cons g rest =>
          intro hpw b hb
          obtain ⟨hf, hpw2⟩ := List.pairwise_cons.mp hpw
          rw [show s_bands violAt (f :: g :: rest) =
              if violAt ((f + g) / 2) then
                (f, (g : WithTop ℚ)) :: s_bands violAt (g :: rest)
              else s_bands violAt (g :: rest) from rfl] at hb
          by_cases hv : violAt ((f + g) / 2)
          · rw [if_pos hv] at hb
            rcases List.mem_cons.mp hb with rfl | hb
            · exact WithTop.coe_le_coe.mpr (hf g (List.mem_cons_self _ _))
            · exact ih hpw2 b hb
          · rw [if_neg hv] at hb
            exact ih hpw2 b hb

/-- On sorted crossover frequencies the scattering-route bands are
ascending and non-overlapping: each band stops no later than the next one
starts. -/
theorem s_bands_pairwise (violAt : ℚ → Bool) :
    ∀ l : List ℚ, l.Pairwise (· ≤ ·) →
      (s_bands violAt l).Pairwise
        (fun p q => p.1 ≤ q.1 ∧ p.2 ≤ (q.1 : WithTop ℚ)) := by
  intro l
  induction l with
  | nil => intro _; simp [s_bands]
  | cons f t ih =>
      cases t with
      | nil =>
          intro _
          by_cases hv : violAt (11 / 10 * f) <;> simp [s_bands, hv]
      | cons g rest =>
          intro hpw
          obtain ⟨hf, hpw2⟩ := List.pairwise_cons.mp hpw
          have hg : ∀ x ∈ rest, g ≤ x := (List.pairwise_cons.mp hpw2).1
          have htail := ih hpw2
          rw [show s_bands violAt (f :: g :: rest) =
              if violAt ((f + g) / 2) then
                (f, (g : WithTop ℚ)) :: s_bands violAt (g :: rest)
              else s_bands violAt (g :: rest) from rfl]
          by_cases hv : violAt ((f + g) / 2)
          · rw [if_pos hv]
            refine List.pairwise_cons.mpr ⟨fun q hq => ?_, htail⟩
            have hq1 : q.1 ∈ g :: rest := (s_bands_mem violAt (g :: rest) q hq).1
            have hgle : g ≤ q.1 := by
              rcases List.mem_cons.mp hq1 with he | hmem
              · exact he ▸ le_refl g
              · exact hg _ hmem
            exact ⟨hf q.1 hq1, WithTop.coe_le_coe.mpr hgle⟩
          · rw [if_neg hv]
            exact htail

/-- Everything surviving the admittance-route merge pass was already one
of the constructed intervals. -/
theorem y_merge_aux_subset :
    ∀ (xs : List (ℚ × WithTop ℚ)) (prev : ℚ × WithTop ℚ),
      ∀ b ∈ y_merge_aux prev xs, b = prev ∨ b ∈ xs := by
  intro xs
  induction xs with
  | nil =>
      intro prev b hb
      simp only [y_merge_aux, List.mem_singleton] at hb
      exact Or.inl hb
  | cons cur rest ih =>
      intro prev b hb
      by_cases he : prev.2 = cur.2
      · rw [y_merge_aux, if_pos he] at hb
        rcases ih prev b hb with h | h
        · exact Or.inl h
        · exact Or.inr (List.mem_cons_of_mem _ h)
      · rw [y_merge_aux, if_neg he] at hb
        rcases List.mem_cons.mp hb with rfl | hb
        · exact Or.inl rfl
        · rcases ih cur b hb with h | h
          · exact Or.inr (h ▸ List.mem_cons_self _ _)
          · exact Or.inr (List.mem_cons_of_mem _ h)

/-- The merge pass returns a subset of the constructed intervals. -/
theorem y_merge_subset (L : List (ℚ × WithTop ℚ)) : ∀ b ∈ y_merge L, b ∈ L := by
  cases L with
  | nil => intro b hb; simp [y_merge] at hb
  | cons x xs =>
      intro b hb
      rcases y_merge_aux_subset xs x b hb with rfl | h
      · exact List.mem_cons_self _ _
      · exact List.mem_cons_of_mem _ h

/-- Every interval constructed by the admittance route stops at a finite
value: either a crossover frequency or the sentinel `1e16` — never an
infinity. -/
theorem y_intervals_stop (violAt : ℚ → Bool) (singW : List ℚ)
    (hne : singW ≠ []) :
    ∀ b ∈ y_intervals violAt singW,
      b.2 ≠ ⊤ ∧
        (b.2 = ((10 ^ 16 : ℚ) : WithTop ℚ) ∨ ∃ w ∈ singW, b.2 = (w : WithTop ℚ)) := by
  intro b hb
  unfold y_intervals at hb
  obtain ⟨k, hk, hbk⟩ := List.mem_filterMap.mp hb
  by_cases hv : violAt (y_mid singW k)
  · rw [if_pos hv] at hbk
    have hb2 := Option.some.inj hbk
    subst hb2
    unfold y_interval_at
    have hlen : 0 < singW.length := List.length_pos.mpr hne
    by_cases h0 : k = 0
    · rw [if_pos h0]
      refine ⟨WithTop.coe_ne_top, Or.inr ⟨singW.getD 0 0, ?_, rfl⟩⟩
      rw [List.getD_eq_getElem singW 0 hlen]
      exact List.getElem_mem hlen
    · rw [if_neg h0]
      by_cases hl : k = singW.length
      · rw [if_pos hl]
        exact ⟨WithTop.coe_ne_top, Or.inl rfl⟩
      · rw [if_neg hl]
        have hklt : k < singW.length := by
          have := List.mem_range.mp hk
          omega
        refine ⟨WithTop.coe_ne_top, Or.inr ⟨singW.getD k 0, ?_, rfl⟩⟩
        rw [List.getD_eq_getElem singW 0 hklt]
        exact List.getElem_mem hklt
  · rw [if_neg hv] at hbk
    exact absurd hbk (by simp)

/-- The characterisation above transported through the merge pass and the
empty-crossover guard: the admittance route never reports an infinite
`f_stop`. -/
theorem passivity_test_y_stop (violAt : ℚ → Bool) (singW : List ℚ) :
    ∀ b ∈ passivity_test_y violAt singW,
      b.2 ≠ ⊤ ∧
        (b.2 = ((10 ^ 16 : ℚ) : WithTop ℚ) ∨ ∃ w ∈ singW, b.2 = (w : WithTop ℚ)) := by
  intro b hb
  unfold passivity_test_y at hb
  by_cases hne : singW.isEmpty
  · rw [if_pos hne] at hb
    simp at hb
  · rw [if_neg hne] at hb
    exact y_intervals_stop violAt singW
      (by simpa [List.isEmpty_iff] using hne) b (y_merge_subset _ b hb)

/-- The reflection-route interval for a violation run starts at the
angular frequency `2*pi*f` of the run's first grid point (possibly scaled
by the degenerate-band factor 7/8), and always stops at a finite value. -/
theorem r_interval_shape (pi : ℚ) (freqtest : List ℚ) (iv : ℕ × ℕ) :
    ((r_interval_of pi freqtest iv).1 = 2 * pi * freqtest.getD iv.1 0 ∨
     (r_interval_of pi freqtest iv).1 = 7 / 8 * (2 * pi * freqtest.getD iv.1 0)) ∧
    (r_interval_of pi freqtest iv).2 ≠ ⊤ := by
  simp only [r_interval_of]
  split_ifs
  · exact ⟨Or.inl rfl, WithTop.coe_ne_top⟩
  · exact ⟨Or.inl rfl, WithTop.coe_ne_top⟩
  · exact ⟨Or.inr rfl, WithTop.coe_ne_top⟩
  · exact ⟨Or.inl rfl, WithTop.coe_ne_top⟩
  · exact ⟨Or.inl rfl, WithTop.coe_ne_top⟩

/-- On a sorted list, `getD` with default 0 is monotone over in-range
indices. -/
theorem getD_mono_of_sorted (l : List ℚ) (hsort : l.Pairwise (· ≤ ·))
    {i j : ℕ} (hij : i ≤ j) (hj : j < l.length) :
    l.getD i 0 ≤ l.getD j 0 := by
  rcases eq_or_lt_of_le hij with rfl | hlt
  · exact le_refl _
  · have hi : i < l.length := lt_trans hlt hj
    rw [List.getD_eq_getElem l 0 hi, List.getD_eq_getElem l 0 hj]
    have h := List.pairwise_iff_get.mp hsort ⟨i, hi⟩ ⟨j, hj⟩ hlt
    simpa [List.get_eq_getElem] using h

/-- `getD` with default 0 on a list of non-negative values is
non-negative. -/
theorem getD_nonneg_of_forall (l : List ℚ) (h0 : ∀ w ∈ l, 0 ≤ w) (i : ℕ) :
    0 ≤ l.getD i 0 := by
  by_cases hi : i < l.length
  · rw [List.getD_eq_getElem l 0 hi]
    exact h0 _ (List.getElem_mem hi)
  · rw [l.getD_eq_default 0 (le_of_not_lt hi)]

/-- `getD` with default 0 on a list of values below the sentinel `1e16`
stays below the sentinel. -/
theorem getD_le_sentinel (l : List ℚ) (hb : ∀ w ∈ l, w ≤ 10 ^ 16) (i : ℕ) :
    l.getD i 0 ≤ 10 ^ 16 := by
  by_cases hi : i < l.length
  · rw [List.getD_eq_getElem l 0 hi]
    exact hb _ (List.getElem_mem hi)
  · rw [l.getD_eq_default 0 (le_of_not_lt hi)]
    norm_num

/-- Every admittance-route interval except the one below the first
crossover starts at the crossover with index `k-1`. -/
theorem y_interval_at_start (singW : List ℚ) (k : ℕ) (hk : k ≠ 0) :
    (y_interval_at singW k).1 = singW.getD (k - 1) 0 := by
  unfold y_interval_at
  rw [if_neg hk]
  by_cases hl : k = singW.length
  · rw [if_pos hl]
  · rw [if_neg hl]

/-- Every admittance-route interval satisfies `f_start ≤ f_stop`, given
sorted non-negative crossover frequencies below the `1e16` sentinel. -/
theorem y_interval_at_le (singW : List ℚ) (hsort : singW.Pairwise (· ≤ ·))
    (h0 : ∀ w ∈ singW, 0 ≤ w) (h16 : ∀ w ∈ singW, w ≤ 10 ^ 16)
    (k : ℕ) (hk : k ≤ singW.length) :
    ((y_interval_at singW k).1 : WithTop ℚ) ≤ (y_interval_at singW k).2 := by
  unfold y_interval_at
  by_cases h0k : k = 0
  · rw [if_pos h0k]
    exact WithTop.coe_le_coe.mpr (getD_nonneg_of_forall _ h0 0)
  · rw [if_neg h0k]
    by_cases hl : k = singW.length
    · rw [if_pos hl]
      exact WithTop.coe_le_coe.mpr (getD_le_sentinel _ h16 _)
    · rw [if_neg hl]
      exact WithTop.coe_le_coe.mpr
        (getD_mono_of_sorted _ hsort (by omega) (by omega))

/-- Admittance-route intervals for increasing midpoint indices are
ascending and non-overlapping: the earlier interval stops no later than
the later one starts. -/
theorem y_interval_at_rel (singW : List ℚ) (hsort : singW.Pairwise (· ≤ ·))
    (h0 : ∀ w ∈ singW, 0 ≤ w) {k1 k2 : ℕ} (h12 : k1 < k2)
    (hk2 : k2 ≤ singW.length) :
    (y_interval_at singW k1).1 ≤ (y_interval_at singW k2).1 ∧
      (y_interval_at singW k1).2 ≤ ((y_interval_at singW k2).1 : WithTop ℚ) := by
  have hk2ne : k2 ≠ 0 := by omega
  have hstart2 : (y_interval_at singW k2).1 = singW.getD (k2 - 1) 0 :=
    y_interval_at_start _ _ hk2ne
  have hk21 : k2 - 1 < singW.length := by omega
  by_cases h0k : k1 = 0
  · subst h0k
    have hstart1 : (y_interval_at singW 0).1 = 0 := by
      unfold y_interval_at
      rw [if_pos rfl]
    have hstop1 : (y_interval_at singW 0).2 = (singW.getD 0 0 : WithTop ℚ) := by
      unfold y_interval_at
      rw [if_pos rfl]
    constructor
    · rw [hstart1, hstart2]
      exact getD_nonneg_of_forall _ h0 _
    · rw [hstop1, hstart2]
      exact WithTop.coe_le_coe.mpr (getD_mono_of_sorted _ hsort (by omega) hk21)
  · have hstart1 : (y_interval_at singW k1).1 = singW.getD (k1 - 1) 0 :=
      y_interval_at_start _ _ h0k
    have hstop1 : (y_interval_at singW k1).2 = (singW.getD k1 0 : WithTop ℚ) := by
      unfold y_interval_at
      rw [if_neg h0k, if_neg (by omega : ¬ k1 = singW.length)]
    constructor
    · rw [hstart1, hstart2]
      exact getD_mono_of_sorted _ hsort (by omega) hk21
    · rw [hstop1, hstart2]
      exact WithTop.coe_le_coe.mpr (getD_mono_of_sorted _ hsort (by omega) hk21)

/-- The constructed admittance intervals are ascending and
non-overlapping, given sorted non-negative crossover frequencies. -/
theorem y_intervals_pairwise (violAt : ℚ → Bool) (singW : List ℚ)
    (hsort : singW.Pairwise (· ≤ ·)) (h0 : ∀ w ∈ singW, 0 ≤ w) :
    (y_intervals violAt singW).Pairwise
      (fun p q => p.1 ≤ q.1 ∧ p.2 ≤ (q.1 : WithTop ℚ)) := by
  unfold y_intervals
  refine List.pairwise_filterMap.mpr (List.pairwise_iff_get.mpr ?_)
  intro i j hij
  have hgi : (List.range (singW.length + 1)).get i = i.val := by
    simp [List.get_eq_getElem]
  have hgj : (List.range (singW.length + 1)).get j = j.val := by
    simp [List.get_eq_getElem]
  rw [hgi, hgj]
  intro x hx y hy
  by_cases hvi : violAt (y_mid singW i.val)
  · rw [if_pos hvi, Option.mem_def] at hx
    obtain rfl := Option.some.inj hx
    by_cases hvj : violAt (y_mid singW j.val)
    · rw [if_pos hvj, Option.mem_def] at hy
      obtain rfl := Option.some.inj hy
      have hjlen : j.val ≤ singW.length := by
        have hlt := j.isLt
        simp only [List.length_range] at hlt
        omega
      exact y_interval_at_rel singW hsort h0 hij hjlen
    · rw [if_neg hvj] at hy
      exact absurd hy (by simp)
  · rw [if_neg hvi] at hx
    exact absurd hx (by simp)

/-- The merge pass keeps its survivors in their original order: its output
is a sublist of its input. -/
theorem y_merge_aux_sublist :
    ∀ (xs : List (ℚ × WithTop ℚ)) (prev : ℚ × WithTop ℚ),
      (y_merge_aux prev xs).Sublist (prev :: xs) := by
  intro xs
  induction xs with
  | nil => intro prev; exact List.Sublist.refl _
  | cons cur rest ih =>
      intro prev
      by_cases he : prev.2 = cur.2
      · rw [y_merge_aux, if_pos he]
        exact (ih prev).trans ((List.sublist_cons_self cur rest).cons₂ prev)
      · rw [y_merge_aux, if_neg he]
        exact (ih cur).cons₂ prev

/-- The merge pass returns an order-preserving sublist of the constructed
intervals. -/
theorem y_merge_sublist (L : List (ℚ × WithTop ℚ)) : (y_merge L).Sublist L := by
  cases L with
  | nil => exact List.Sublist.refl _
  | cons x xs => exact y_merge_aux_sublist xs x

/-- The admittance-route bands are ascending and non-overlapping, given
sorted non-negative crossover frequencies. -/
theorem passivity_test_y_pairwise (violAt : ℚ → Bool) (singW : List ℚ)
    (hsort : singW.Pairwise (· ≤ ·)) (h0 : ∀ w ∈ singW, 0 ≤ w) :
    (passivity_test_y violAt singW).Pairwise
      (fun p q => p.1 ≤ q.1 ∧ p.2 ≤ (q.1 : WithTop ℚ)) := by
  unfold passivity_test_y
  by_cases he : singW.isEmpty
  · rw [if_pos he]
    exact List.Pairwise.nil
  · rw [if_neg he]
    exact (y_intervals_pairwise violAt singW hsort h0).sublist (y_merge_sublist _)

/-- Every admittance-route band satisfies `f_start ≤ f_stop`, given sorted
non-negative crossover frequencies below the `1e16` sentinel. -/
theorem passivity_test_y_le (violAt : ℚ → Bool) (singW : List ℚ)
    (hsort : singW.Pairwise (· ≤ ·)) (h0 : ∀ w ∈ singW, 0 ≤ w)
    (h16 : ∀ w ∈ singW, w ≤ 10 ^ 16) :
    ∀ b ∈ passivity_test_y violAt singW, (b.1 : WithTop ℚ) ≤ b.2 := by
  intro b hb
  unfold passivity_test_y at hb
  by_cases he : singW.isEmpty
  · rw [if_pos he] at hb
    simp at hb
  · rw [if_neg he] at hb
    have hb2 := y_merge_subset _ b hb
    unfold y_intervals at hb2
    obtain ⟨k, hk, hbk⟩ := List.mem_filterMap.mp hb2
    by_cases hv : violAt (y_mid singW k)
    · rw [if_pos hv] at hbk
      obtain rfl := Option.some.inj hbk
      refine y_interval_at_le singW hsort h0 h16 k ?_
      have hlt := List.mem_range.mp hk
      omega
    · rw [if_neg hv] at hbk
      exact absurd hbk (by simp)

/-- Every reflection-route interval built from an ordered in-range index
run satisfies `f_start ≤ f_stop`, given a non-negative sorted grid that
contains 0 as its minimum and whose angular frequencies stay below the
`1e16` sentinel. -/
theorem r_interval_le (pi : ℚ) (freqtest : List ℚ) (hpi : 0 ≤ pi)
    (hf0 : ∀ f ∈ freqtest, 0 ≤ f)
    (hf16 : ∀ f ∈ freqtest, 2 * pi * f ≤ 10 ^ 16)
    (hmin : np_min freqtest = 0) (hsort : freqtest.Pairwise (· ≤ ·))
    (iv : ℕ × ℕ) (hij : iv.1 ≤ iv.2) (hlen : iv.2 < freqtest.length) :
    ((r_interval_of pi freqtest iv).1 : WithTop ℚ) ≤
      (r_interval_of pi freqtest iv).2 := by
  have h2pi : (0 : ℚ) ≤ 2 * pi := by linarith
  have hnn : ∀ i : ℕ, 0 ≤ 2 * pi * freqtest.getD i 0 := fun i =>
    mul_nonneg h2pi (getD_nonneg_of_forall _ hf0 i)
  have hb16 : ∀ i : ℕ, 2 * pi * freqtest.getD i 0 ≤ 10 ^ 16 := by
    intro i
    by_cases hi : i < freqtest.length
    · rw [List.getD_eq_getElem _ 0 hi]
      exact hf16 _ (List.getElem_mem hi)
    · rw [freqtest.getD_eq_default 0 (le_of_not_lt hi), mul_zero]
      norm_num
  have hmono : 2 * pi * freqtest.getD iv.1 0 ≤ 2 * pi * freqtest.getD iv.2 0 :=
    mul_le_mul_of_nonneg_left (getD_mono_of_sorted _ hsort hij hlen) h2pi
  simp only [r_interval_of]
  split_ifs with h1 h2 h3 h4
  · exact WithTop.coe_le_coe.mpr (hb16 _)
  · refine WithTop.coe_le_coe.mpr ?_
    have hz : 2 * pi * freqtest.getD iv.1 0 = 0 := by
      rw [h1, h3, hmin, mul_zero]
    rw [hz]
    exact getD_nonneg_of_forall _ hf0 _
  · refine WithTop.coe_le_coe.mpr ?_
    rw [h1]
    have := hnn iv.2
    linarith
  · exact WithTop.coe_le_coe.mpr (hb16 _)
  · exact WithTop.coe_le_coe.mpr hmono

/-- Every reflection-route band satisfies `f_start ≤ f_stop`, given a
non-negative sorted grid containing 0 as its minimum, angular frequencies
below the `1e16` sentinel, and in-range violation indices. -/
theorem passivity_test_r_le (pi : ℚ) (freqtest : List ℚ)
    (non_passive : List ℕ) (hpi : 0 ≤ pi) (hf0 : ∀ f ∈ freqtest, 0 ≤ f)
    (hf16 : ∀ f ∈ freqtest, 2 * pi * f ≤ 10 ^ 16)
    (hmin : np_min freqtest = 0) (hsort : freqtest.Pairwise (· ≤ ·))
    (hbound : ∀ n ∈ non_passive, n < freqtest.length) :
    ∀ b ∈ passivity_test_r pi freqtest non_passive,
      (b.1 : WithTop ℚ) ≤ b.2 := by
  intro b hb
  unfold passivity_test_r at hb
  obtain ⟨iv, hiv, rfl⟩ := List.mem_map.mp hb
  cases non_passive with
  | nil => simp [find_limits_of_violation] at hiv
  | cons v vs =>
      obtain ⟨h1, _, h3⟩ := find_limits_aux_mem vs v v (le_refl _) iv hiv
      have hiv2mem : iv.2 ∈ v :: vs := by
        rcases h3 with h | h
        · exact h ▸ List.mem_cons_self _ _
        · exact List.mem_cons_of_mem _ h
      exact r_interval_le pi freqtest hpi hf0 hf16 hmin hsort iv h1
        (hbound _ hiv2mem)

/-- **C3, counterexample.** The claim asserts that all three routes return
an ascending list of non-overlapping intervals under one common output
contract.  Two failures:  (1) on crossover data with an unbounded final
band, the scattering route closes it with `np.inf` (`⊤`) while the
admittance route closes it with the finite float `1e16` — the sentinels
differ; (2) on the reflection route's grid `[0, 90, 91, 95, 100, 200]`
with violating samples `{1, 2}` and `{4}` (taking `pi = 3` as the embedded
stand-in for `np.pi`; the overlap condition `9/8 * f1 > 7/8 * f2` is
invariant under the common `2*pi` scale), the degenerate-band widening by
`7/8` and `9/8` produces the bands `(540, 546)` and `(525, 675)`, which
are out of ascending order (`540 > 525`) and overlap
(`546 > 525`). -/
theorem claim_C3_counterexample :
    s_bands (fun _ => true) [0] = [((0 : ℚ), (⊤ : WithTop ℚ))] ∧
    passivity_test_y (fun _ => true) [5] =
      [((0 : ℚ), ((5 : ℚ) : WithTop ℚ)), ((5 : ℚ), ((10 ^ 16 : ℚ) : WithTop ℚ))] ∧
    ((10 ^ 16 : ℚ) : WithTop ℚ) ≠ (⊤ : WithTop ℚ) ∧
    passivity_test_r 3 [0, 90, 91, 95, 100, 200] [1, 2, 4] =
      [((540 : ℚ), ((546 : ℚ) : WithTop ℚ)), ((525 : ℚ), ((675 : ℚ) : WithTop ℚ))] ∧
    ¬ ((540 : ℚ) ≤ 525) ∧
    ¬ (((546 : ℚ) : WithTop ℚ) ≤ ((525 : ℚ) : WithTop ℚ)) := by
  refine ⟨rfl, rfl, WithTop.coe_ne_top, ?_, by norm_num, fun hcontra =>
    absurd (WithTop.coe_le_coe.mp hcontra) (by norm_num)⟩
  have hfl : find_limits_of_violation [1, 2, 4] = [(1, 2), (4, 4)] := by decide
  have hmax : np_max [0, 90, 91, 95, 100, 200] = 200 := by
    norm_num [np_max, max_def]
  have hmin : np_min [0, 90, 91, 95, 100, 200] = 0 := by
    norm_num [np_min, min_def]
  rw [passivity_test_r, hfl]
  norm_num [r_interval_of, hmax, hmin, List.getD_cons_zero, List.getD_cons_succ]

/-- **C3, amended.** The scattering and admittance routes return their
violation bands as an ascending list of non-overlapping intervals (each
band's `f_stop` is at most the next band's `f_start`, and
`f_start ≤ f_stop` within every band), the scattering route over its
sorted crossover frequencies and the admittance route given its sorted,
non-negative crossover frequencies below the `1e16` sentinel.  The
reflection route also returns bands with `f_start ≤ f_stop` (given its
non-negative sorted grid containing 0 with angular frequencies below the
sentinel and in-range violation indices), but its degenerate-band widening
by the factors `7/8` and `9/8` can produce bands that overlap and start
out of order, so its list need not be ascending or non-overlapping.  The
output contract is not identical across the three routes: the scattering
route reports band edges in Hz and closes the final unbounded band with
`np.inf`, while the admittance and reflection routes report edges in
angular frequency (the reflection route multiplies its Hz grid by `2*pi`)
and close an unbounded `f_stop` with the finite sentinel `1e16`, never an
infinity. -/
theorem claim_C3_band_contract :
    (∀ (violAt : ℚ → Bool) (l : List ℚ), l.Pairwise (· ≤ ·) →
        (s_bands violAt l).Pairwise
          (fun p q => p.1 ≤ q.1 ∧ p.2 ≤ (q.1 : WithTop ℚ)) ∧
        ∀ b ∈ s_bands violAt l, (b.1 : WithTop ℚ) ≤ b.2 ∧
          (b.2 = ⊤ ∨ ∃ g ∈ l, b.2 = (g : WithTop ℚ))) ∧
    (∀ (violAt : ℚ → Bool) (singW : List ℚ),
        ∀ b ∈ passivity_test_y violAt singW,
        b.2 ≠ ⊤ ∧
          (b.2 = ((10 ^ 16 : ℚ) : WithTop ℚ) ∨ ∃ w ∈ singW, b.2 = (w : WithTop ℚ))) ∧
    (∀ (violAt : ℚ → Bool) (singW : List ℚ), singW.Pairwise (· ≤ ·) →
        (∀ w ∈ singW, 0 ≤ w) → (∀ w ∈ singW, w ≤ 10 ^ 16) →
        (passivity_test_y violAt singW).Pairwise
          (fun p q => p.1 ≤ q.1 ∧ p.2 ≤ (q.1 : WithTop ℚ)) ∧
        ∀ b ∈ passivity_test_y violAt singW, (b.1 : WithTop ℚ) ≤ b.2) ∧
    (∀ (pi : ℚ) (freqtest : List ℚ) (non_passive : List ℕ), 0 ≤ pi →
        (∀ f ∈ freqtest, 0 ≤ f) → (∀ f ∈ freqtest, 2 * pi * f ≤ 10 ^ 16) →
        np_min freqtest = 0 → freqtest.Pairwise (· ≤ ·) →
        (∀ n ∈ non_passive, n < freqtest.length) →
        ∀ b ∈ passivity_test_r pi freqtest non_passive,
          (b.1 : WithTop ℚ) ≤ b.2) ∧
    (∀ (pi : ℚ) (freqtest : List ℚ) (iv : ℕ × ℕ),
        ((r_interval_of pi freqtest iv).1 = 2 * pi * freqtest.getD iv.1 0 ∨
         (r_interval_of pi freqtest iv).1 =
           7 / 8 * (2 * pi * freqtest.getD iv.1 0)) ∧
        (r_interval_of pi freqtest iv).2 ≠ ⊤) := by
  refine ⟨fun violAt l hl => ⟨s_bands_pairwise violAt l hl, fun b hb =>
      ⟨s_bands_le violAt l hl b hb, (s_bands_mem violAt l b hb).2⟩⟩,
    passivity_test_y_stop,
    fun violAt singW hsort h0 h16 =>
      ⟨passivity_test_y_pairwise violAt singW hsort h0,
        passivity_test_y_le violAt singW hsort h0 h16⟩,
    passivity_test_r_le,
    r_interval_shape⟩

/-- **C3, witness.** The contract facts evaluated on concrete inputs: the
scattering and admittance routes on the sorted crossover list `[1, 2]`,
and the reflection route's single band on the grid `[0, 1, 2]` with the
violation run `{1, 2}`. -/
theorem claim_C3_witness :
    (s_bands (fun _ => true) [1, 2]).Pairwise
      (fun p q => p.1 ≤ q.1 ∧ p.2 ≤ (q.1 : WithTop ℚ)) ∧
    (passivity_test_y (fun _ => true) [1, 2]).Pairwise
      (fun p q => p.1 ≤ q.1 ∧ p.2 ≤ (q.1 : WithTop ℚ)) ∧
    (((6 : ℚ) : WithTop ℚ) ≤ ((10 ^ 16 : ℚ) : WithTop ℚ)) := by
  have hr : passivity_test_r 3 [0, 1, 2] [1, 2] =
      [((6 : ℚ), ((10 ^ 16 : ℚ) : WithTop ℚ))] := by
    have hfl : find_limits_of_violation [1, 2] = [(1, 2)] := by decide
    have hmax : np_max [0, 1, 2] = 2 := by norm_num [np_max, max_def]
    have hmin : np_min [0, 1, 2] = 0 := by norm_num [np_min, min_def]
    rw [passivity_test_r, hfl]
    norm_num [r_interval_of, hmax, hmin, List.getD_cons_zero, List.getD_cons_succ]
  refine ⟨(claim_C3_band_contract.1 (fun _ => true) [1, 2] (by decide)).1,
    (claim_C3_band_contract.2.2.1 (fun _ => true) [1, 2] (by decide) (by decide)
      (by decide)).1,
    claim_C3_band_contract.2.2.2.1 3 [0, 1, 2] [1, 2] (by norm_num) (by norm_num)
      (by norm_num) (by norm_num [np_min, min_def])
      (by norm_num [List.pairwise_cons]) (by norm_num)
      ((6 : ℚ), ((10 ^ 16 : ℚ) : WithTop ℚ))
      (by rw [hr]; exact List.mem_singleton_self _)⟩
